import Mathlib

/-!
Shallow embedding of `src/RedisCacheAdapter.ts` (mikro-orm-cache-adapter-redis).

The adapter's own logic (key namespacing, get/set/remove, bulk clear) is
translated directly from the source.  Its external collaborators, which the
spec scopes out and describes only through the consumed interface, are
modelled explicitly:

* the value codec (`JSON.stringify` / `JSON.parse`): modelled by a JSON value
  type `JsonValue` with an executable encoder and parser.  Documented type
  narrowing of the model: numbers are integers (no float forms), object
  fields keep their written order, and the parser accepts exactly the
  encoder's canonical output syntax (no whitespace skipping, no exponent or
  fraction forms) while rejecting malformed text;
* the Redis store: an association list from physical keys to stored text
  blobs with an optional millisecond TTL (`PX`); a read takes the age of the
  entry, so autonomous expiry is visible as a miss once the age reaches the
  TTL;
* `scanStream` with a `match` pattern: the adapter only ever passes patterns
  of the shape `lit ++ "*"`; the model implements exactly that shape (a key
  matches when `lit` is a literal prefix of it).  Glob metacharacters inside
  `lit` are not modelled;
* the ioredis pipeline: queued `DEL`s submitted by one `exec`; an `exec` on
  an empty pipeline resolves immediately without a store round trip (ioredis
  behaviour), which the model records by returning `none` as the submitted
  batch.

Debug logging is an injected sink with no effect on results and is not
modelled.
-/

/-- JSON-representable values as stored by the adapter (the payload of
`set` and the result of `get`).  Numbers are modelled as integers; this is
the documented type narrowing of the encoding. -/
inductive JsonValue where
  | null
  | bool (b : Bool)
  | num (n : Int)
  | str (s : String)
  | arr (elems : List JsonValue)
  | obj (fields : List (String × JsonValue))
deriving Repr

/-- Failure of the value codec on malformed stored text (`JSON.parse`
throwing). -/
inductive DecodeError where
  | malformed
deriving DecidableEq, Repr

/-- The decimal digit characters. -/
def digitChar : Nat → Char
  | 0 => '0' | 1 => '1' | 2 => '2' | 3 => '3' | 4 => '4'
  | 5 => '5' | 6 => '6' | 7 => '7' | 8 => '8' | _ => '9'

/-- Decimal digits of `n`, most significant first, computed with explicit
fuel (`fuel = n` always suffices) so that the definition is structurally
recursive and kernel-reducible. -/
def natCharsAux : Nat → Nat → List Char
  | 0, n => [digitChar n]
  | fuel + 1, n => if n < 10 then [digitChar n] else natCharsAux fuel (n / 10) ++ [digitChar (n % 10)]

/-- Decimal representation of a natural number. -/
def natChars (n : Nat) : List Char := natCharsAux n n

/-- Decimal representation of an integer (leading minus sign when negative),
as produced by the standard JSON number encoding of an integral value. -/
def intChars : Int → List Char
  | Int.ofNat m => natChars m
  | Int.negSucc m => '-' :: natChars (m + 1)

/-- String-body escaping of the encoder: a quote or a backslash is preceded
by a backslash, every other character is copied. -/
def escChars : List Char → List Char
  | [] => []
  | c :: cs => if c = '\"' ∨ c = '\\' then '\\' :: c :: escChars cs else c :: escChars cs

mutual

/-- Canonical text encoding of a JSON value (the model of `JSON.stringify`):
no whitespace, fields and elements comma-separated in order. -/
def encodeVal : JsonValue → List Char
  | JsonValue.null => 'n' :: 'u' :: 'l' :: 'l' :: []
  | JsonValue.bool true => 't' :: 'r' :: 'u' :: 'e' :: []
  | JsonValue.bool false => 'f' :: 'a' :: 'l' :: 's' :: 'e' :: []
  | JsonValue.num n => intChars n
  | JsonValue.str s => '\"' :: (escChars s.data ++ ['\"'])
  | JsonValue.arr [] => '[' :: ']' :: []
  | JsonValue.arr (x :: xs) => '[' :: (encodeVal x ++ encodeArrTail xs)
  | JsonValue.obj [] => '\x7b' :: '\x7d' :: []
  | JsonValue.obj (fv :: fs) => '\x7b' :: (encodeField fv ++ encodeObjTail fs)

/-- Encoding of the elements of an array after the first, each preceded by a
comma, closed by a bracket. -/
def encodeArrTail : List JsonValue → List Char
  | [] => [']']
  | x :: xs => ',' :: (encodeVal x ++ encodeArrTail xs)

/-- Encoding of one object field: quoted key, colon, value. -/
def encodeField : String × JsonValue → List Char
  | (k, v) => '\"' :: (escChars k.data ++ ['\"', ':'] ++ encodeVal v)

/-- Encoding of the fields of an object after the first, each preceded by a
comma, closed by a brace. -/
def encodeObjTail : List (String × JsonValue) → List Char
  | [] => ['\x7d']
  | fv :: fs => ',' :: (encodeField fv ++ encodeObjTail fs)

end

/-- The value codec's encoder (`JSON.stringify` in the source). -/
def encode (v : JsonValue) : String := ⟨encodeVal v⟩

/-- Decimal digit test on a character (code points 48-57). -/
def isDigitCh (c : Char) : Bool := 48 ≤ c.toNat && c.toNat ≤ 57

/-- Numeric value of a decimal digit character. -/
def charDigit (c : Char) : Nat := c.toNat - 48

/-- True when the input does not begin with a decimal digit (so a digit run
ending right before it is maximal). -/
def noDigitHead : List Char → Bool
  | [] => true
  | c :: _ => !isDigitCh c

/-- Split a leading run of decimal digit characters off the input, returning
their numeric values. -/
def takeDigits : List Char → List Nat × List Char
  | [] => ([], [])
  | c :: cs =>
    if isDigitCh c then
      let p := takeDigits cs
      (charDigit c :: p.1, p.2)
    else ([], c :: cs)

/-- Value of a most-significant-first digit list. -/
def digitsVal (ds : List Nat) : Nat := ds.foldl (fun a d => 10 * a + d) 0

/-- Parse a nonempty run of decimal digits as a natural number. -/
def parseNat (cs : List Char) : Option (Nat × List Char) :=
  match takeDigits cs with
  | ([], _) => none
  | (ds, r) => some (digitsVal ds, r)

/-- Parse the body of a quoted string (the opening quote already consumed):
a backslash takes the next character literally, an unescaped quote ends the
string. -/
def parseStrRest : List Char → Option (List Char × List Char)
  | [] => none
  | c :: cs =>
    if c = '\"' then some ([], cs)
    else if c = '\\' then
      match cs with
      | [] => none
      | e :: cs' =>
        match parseStrRest cs' with
        | none => none
        | some (s, r) => some (e :: s, r)
    else
      match parseStrRest cs with
      | none => none
      | some (s, r) => some (c :: s, r)

/-- Consume an expected literal character sequence. -/
def afterLit : List Char → List Char → Option (List Char)
  | [], cs => some cs
  | p :: ps, c :: cs => if c = p then afterLit ps cs else none
  | _ :: _, [] => none

/-- Parsing mode of the single recursive JSON parser: a whole value, the
tail of an array (after its first element), one object field, or the tail
of an object.  A single fuel-indexed function keeps the recursion
structural, hence kernel-reducible. -/
inductive PMode where
  | val
  | arrT
  | field
  | objT
deriving DecidableEq, Repr

/-- Fuel-indexed recursive-descent parser for the canonical JSON syntax
produced by `encodeVal`.  Mode `arrT` returns `.arr` of the remaining
elements, mode `field` returns `.obj` of the single parsed field, mode
`objT` returns `.obj` of the remaining fields. -/
def parseM : Nat → PMode → List Char → Option (JsonValue × List Char)
  | 0, _, _ => none
  | _ + 1, _, [] => none
  | f + 1, PMode.val, c :: cs =>
    if c = '\"' then
      match parseStrRest cs with
      | none => none
      | some (s, r) => some (JsonValue.str ⟨s⟩, r)
    else if c = '[' then
      match cs with
      | [] => none
      | c2 :: cs2 =>
        if c2 = ']' then some (JsonValue.arr [], cs2)
        else
          match parseM f PMode.val (c2 :: cs2) with
          | some (v, r) =>
            match parseM f PMode.arrT r with
            | some (JsonValue.arr vs, r') => some (JsonValue.arr (v :: vs), r')
            | _ => none
          | none => none
    else if c = '\x7b' then
      match cs with
      | [] => none
      | c2 :: cs2 =>
        if c2 = '\x7d' then some (JsonValue.obj [], cs2)
        else
          match parseM f PMode.field (c2 :: cs2) with
          | some (JsonValue.obj [fv], r) =>
            match parseM f PMode.objT r with
            | some (JsonValue.obj fs, r') => some (JsonValue.obj (fv :: fs), r')
            | _ => none
          | _ => none
    else if c = '-' then
      match parseNat cs with
      | some (n, r) => some (JsonValue.num (-(n : Int)), r)
      | none => none
    else if isDigitCh c then
      match parseNat (c :: cs) with
      | some (n, r) => some (JsonValue.num (Int.ofNat n), r)
      | none => none
    else if c = 'n' then
      match afterLit ('u' :: 'l' :: 'l' :: []) cs with
      | some r => some (JsonValue.null, r)
      | none => none
    else if c = 't' then
      match afterLit ('r' :: 'u' :: 'e' :: []) cs with
      | some r => some (JsonValue.bool true, r)
      | none => none
    else if c = 'f' then
      match afterLit ('a' :: 'l' :: 's' :: 'e' :: []) cs with
      | some r => some (JsonValue.bool false, r)
      | none => none
    else none
  | f + 1, PMode.arrT, c :: cs =>
    if c = ']' then some (JsonValue.arr [], cs)
    else if c = ',' then
      match parseM f PMode.val cs with
      | some (v, r) =>
        match parseM f PMode.arrT r with
        | some (JsonValue.arr vs, r') => some (JsonValue.arr (v :: vs), r')
        | _ => none
      | none => none
    else none
  | f + 1, PMode.field, c :: cs =>
    if c = '\"' then
      match parseStrRest cs with
      | some (k, ':' :: r) =>
        match parseM f PMode.val r with
        | some (v, r') => some (JsonValue.obj [(⟨k⟩, v)], r')
        | none => none
      | _ => none
    else none
  | f + 1, PMode.objT, c :: cs =>
    if c = '\x7d' then some (JsonValue.obj [], cs)
    else if c = ',' then
      match parseM f PMode.field cs with
      | some (JsonValue.obj [fv], r) =>
        match parseM f PMode.objT r with
        | some (JsonValue.obj fs, r') => some (JsonValue.obj (fv :: fs), r')
        | _ => none
      | _ => none
    else none

/-- The value codec's decoder (`JSON.parse` in the source): parse one value
spanning the whole text; anything else is malformed. -/
def decode (s : String) : Except DecodeError JsonValue :=
  match parseM (s.data.length + 1) PMode.val s.data with
  | some (v, []) => Except.ok v
  | _ => Except.error DecodeError.malformed

/-- One stored value envelope: the text blob written by `set` and, when the
write carried `PX`, its millisecond TTL. -/
structure CacheEntry where
  data : String
  px : Option Nat
deriving DecidableEq, Repr

/-- The external key-value store: physical keys mapped to entries.  The
store is the sole source of truth; the adapter keeps no state of its own. -/
abbrev Store := List (String × CacheEntry)

/-- Fetch the entry stored under a physical key, TTL ignored. -/
def storeLookup : Store → String → Option CacheEntry
  | [], _ => none
  | (k', e) :: s, k => if k' = k then some e else storeLookup s k

/-- Redis `DEL key`: drop every entry stored under the key (a no-op when
the key is absent; never an error). -/
def storeDel : Store → String → Store
  | [], _ => []
  | (k', e) :: s, k => if k' = k then storeDel s k else (k', e) :: storeDel s k

/-- Redis `SET key value [PX ms]`: overwrite whatever was stored under the
key. -/
def storeSet (s : Store) (k : String) (e : CacheEntry) : Store :=
  storeDel s k ++ [(k, e)]

/-- Redis `GET key`, read at the given age (milliseconds since the entry
was written): an entry whose TTL has elapsed behaves as absent, an entry
with no TTL persists indefinitely. -/
def storeGet (s : Store) (k : String) (age : Nat) : Option String :=
  match storeLookup s k with
  | none => none
  | some e =>
    match e.px with
    | none => some e.data
    | some px => if age < px then some e.data else none

/-- A single command the adapter can issue to the store client. -/
inductive StoreCmd where
  | getCmd (key : String)
  | setCmd (key data : String)
  | setPXCmd (key data : String) (px : Nat)
  | delCmd (key : String)
deriving DecidableEq, Repr

/-- The physical key a command addresses. -/
def StoreCmd.key : StoreCmd → String
  | StoreCmd.getCmd k => k
  | StoreCmd.setCmd k _ => k
  | StoreCmd.setPXCmd k _ _ => k
  | StoreCmd.delCmd k => k

/-- Effect of one command on the store. -/
def applyCmd (s : Store) : StoreCmd → Store
  | StoreCmd.getCmd _ => s
  | StoreCmd.setCmd k d => storeSet s k (CacheEntry.mk d none)
  | StoreCmd.setPXCmd k d px => storeSet s k (CacheEntry.mk d (some px))
  | StoreCmd.delCmd k => storeDel s k

/-- The adapter's configuration after construction: its key namespace and
its optional default expiration in milliseconds.  Immutable; the client,
debug flag and logger sink do not influence any result and are not
modelled. -/
structure RedisCacheAdapter where
  keyPrefix : String
  expiration : Option Nat
deriving DecidableEq, Repr

/-- Constructor line `this.keyPrefix = keyPrefix || 'mikro'`: the fallback
applies to any falsy configured value, which for an optional string means
both an absent option and the empty string. -/
def mkKeyPrefix : Option String → String
  | some s => if s = "" then "mikro" else s
  | none => "mikro"

/-- Construction of the adapter from its options (`keyPrefix`,
`expiration`). -/
def mkAdapter (kp : Option String) (exp : Option Nat) : RedisCacheAdapter :=
  RedisCacheAdapter.mk (mkKeyPrefix kp) exp

/-- `_getKey(name)`: physical key of a logical key. -/
def _getKey (a : RedisCacheAdapter) (name : String) : String :=
  a.keyPrefix ++ ":" ++ name

/-- The single read command `get` issues: `this.client.get(completKey)`. -/
def adapterGetCmd (a : RedisCacheAdapter) (key : String) : StoreCmd :=
  StoreCmd.getCmd (_getKey a key)

/-- `get(key)`: read the physical key; a falsy raw result (absent key or
empty text) is a miss (`undefined`, modelled `none`), otherwise the text is
decoded, a decode failure propagating to the caller. -/
def adapterGet (a : RedisCacheAdapter) (s : Store) (key : String) (age : Nat) :
    Except DecodeError (Option JsonValue) :=
  match storeGet s (_getKey a key) age with
  | none => Except.ok none
  | some d =>
    if d = "" then Except.ok none
    else
      match decode d with
      | Except.ok v => Except.ok (some v)
      | Except.error e => Except.error e

/-- The single write command `set` issues.  The `expiration` parameter
defaults to the adapter's configured expiration when the argument is
absent (`expiration = this.expiration`), and `if (expiration)` issues the
`PX` form exactly when the effective value is truthy (present and
nonzero).  `origin` is received and ignored, as in the source. -/
def adapterSetCmd (a : RedisCacheAdapter) (key : String) (data : JsonValue)
    (origin : String) (expirationArg : Option Nat) : StoreCmd :=
  let expiration := match expirationArg with
    | some e => some e
    | none => a.expiration
  let stringData := encode data
  let completeKey := _getKey a key
  match expiration with
  | some e =>
    if e = 0 then StoreCmd.setCmd completeKey stringData
    else StoreCmd.setPXCmd completeKey stringData e
  | none => StoreCmd.setCmd completeKey stringData

/-- Store state after `set`. -/
def adapterSetState (a : RedisCacheAdapter) (s : Store) (key : String)
    (data : JsonValue) (origin : String) (expirationArg : Option Nat) : Store :=
  applyCmd s (adapterSetCmd a key data origin expirationArg)

/-- The commands `remove` issues: one `DEL` of the physical key. -/
def adapterRemoveCmds (a : RedisCacheAdapter) (name : String) : List StoreCmd :=
  [StoreCmd.delCmd (_getKey a name)]

/-- Store state after `remove`. -/
def adapterRemoveState (a : RedisCacheAdapter) (s : Store) (name : String) : Store :=
  storeDel s (_getKey a name)

/-- The pattern `clear` passes to `scanStream`:
`match : this.keyPrefix + ":*"`. -/
def clearPattern (a : RedisCacheAdapter) : String :=
  a.keyPrefix ++ ":*"

/-- Drop one trailing `*` from a pattern, keeping everything else
literal. -/
def chopStar : List Char → List Char
  | [] => []
  | ['*'] => []
  | c :: cs => c :: chopStar cs

/-- Restricted model of Redis glob matching, for the only pattern shape the
adapter emits (`lit ++ "*"`): a key matches when the pattern minus its
trailing star is a literal prefix of the key. -/
def patKeyMatch (pat k : String) : Bool :=
  (chopStar pat.data).isPrefixOf k.data

/-- Model of the `SCAN`-based enumeration phase: every key of the store
matching the pattern (the cursor walks the whole keyspace; batching does
not change the flattened key list). -/
def scanKeys (s : Store) (pat : String) : List String :=
  (s.map Prod.fst).filter (fun k => patKeyMatch pat k)

/-- `clear()`: enumerate keys matching `keyPrefix + ":*"`, queue one
pipeline `DEL` per key, then `exec` the pipeline once enumeration ends.
Result: the batch of deletes submitted to the store (`none` when the
pipeline is empty — ioredis resolves an empty `exec` without a store round
trip) and the store afterwards.  `DEL` cannot fail, so the sweep always
resolves. -/
def clearRun (a : RedisCacheAdapter) (s : Store) : Option (List String) × Store :=
  let keys := scanKeys s (clearPattern a)
  if keys.isEmpty then (none, s) else (some keys, keys.foldl storeDel s)

/-- The effective expiration in the spec's words: the override when
supplied, else the adapter's default. -/
def effectiveExpiration (a : RedisCacheAdapter) (override : Option Nat) : Option Nat :=
  match override with
  | some e => some e
  | none => a.expiration

/-- The write command `set` should issue, stated from the spec's words: if
the effective expiration is present and truthy, a millisecond-precision
relative-expiry (`PX`) write; otherwise a plain write with no TTL. -/
def specSetCommand (a : RedisCacheAdapter) (key : String) (data : JsonValue)
    (override : Option Nat) : StoreCmd :=
  match effectiveExpiration a override with
  | some (e + 1) => StoreCmd.setPXCmd (_getKey a key) (encode data) (e + 1)
  | some 0 => StoreCmd.setCmd (_getKey a key) (encode data)
  | none => StoreCmd.setCmd (_getKey a key) (encode data)

theorem digitChar_isDigit (d : Nat) (h : d < 10) :
    isDigitCh (digitChar d) = true ∧ charDigit (digitChar d) = d := by
  interval_cases d <;> exact ⟨rfl, rfl⟩

theorem digitsVal_append_one (ds : List Nat) (d : Nat) :
    digitsVal (ds ++ [d]) = 10 * digitsVal ds + d := by
  simp [digitsVal, List.foldl_append]

theorem natCharsAux_spec : ∀ fuel n, n ≤ fuel →
    (∀ c ∈ natCharsAux fuel n, isDigitCh c = true)
    ∧ digitsVal ((natCharsAux fuel n).map charDigit) = n := by
  intro fuel
  induction fuel with
  | zero =>
    intro n hn
    have h0 : n = 0 := Nat.le_zero.mp hn
    subst h0
    exact ⟨by intro c hc; simp [natCharsAux] at hc; subst hc; rfl, rfl⟩
  | succ fuel ih =>
    intro n _
    by_cases hlt : n < 10
    · refine ⟨?_, ?_⟩
      · intro c hc
        simp [natCharsAux, hlt] at hc
        subst hc
        exact (digitChar_isDigit n hlt).1
      · simp [natCharsAux, hlt, digitsVal, (digitChar_isDigit n hlt).2]
    · have hdiv : n / 10 ≤ fuel := by
        have h1 : n / 10 < n := Nat.div_lt_self (by omega) (by omega)
        omega
      obtain ⟨ihd, ihv⟩ := ih (n / 10) hdiv
      have hmod : n % 10 < 10 := Nat.mod_lt n (by omega)
      refine ⟨?_, ?_⟩
      · intro c hc
        simp [natCharsAux, hlt] at hc
        rcases hc with hc | hc
        · exact ihd c hc
        · subst hc; exact (digitChar_isDigit (n % 10) hmod).1
      · have hsplit : natCharsAux (fuel + 1) n
            = natCharsAux fuel (n / 10) ++ [digitChar (n % 10)] := by
          simp [natCharsAux, hlt]
        rw [hsplit, List.map_append, List.map_singleton,
          digitsVal_append_one, ihv, (digitChar_isDigit (n % 10) hmod).2]
        omega

theorem natCharsAux_ne_nil (fuel n : Nat) : natCharsAux fuel n ≠ [] := by
  cases fuel <;> simp [natCharsAux] <;> split <;> simp

theorem takeDigits_append (l rest : List Char)
    (hl : ∀ c ∈ l, isDigitCh c = true) (hr : noDigitHead rest = true) :
    takeDigits (l ++ rest) = (l.map charDigit, rest) := by
  induction l with
  | nil =>
    cases rest with
    | nil => rfl
    | cons c cs =>
      have hc : isDigitCh c = false := by
        simp [noDigitHead] at hr
        exact hr
      simp [takeDigits, hc]
  | cons c l ihl =>
    have hc : isDigitCh c = true := hl c (List.mem_cons_self c l)
    have ih := ihl (fun d hd => hl d (List.mem_cons_of_mem c hd))
    simp [takeDigits, hc, ih]

theorem parseNat_natChars (n : Nat) (rest : List Char) (hr : noDigitHead rest = true) :
    parseNat (natChars n ++ rest) = some (n, rest) := by
  obtain ⟨hd, hv⟩ := natCharsAux_spec n n le_rfl
  unfold parseNat natChars
  rw [takeDigits_append (natCharsAux n n) rest hd hr]
  cases hcons : (natCharsAux n n).map charDigit with
  | nil => exact absurd (List.map_eq_nil_iff.mp hcons) (natCharsAux_ne_nil n n)
  | cons d ds =>
    rw [hcons] at hv
    simp [hv]

theorem parseStrRest_esc (l rest : List Char) :
    parseStrRest (escChars l ++ '\"' :: rest) = some (l, rest) := by
  induction l with
  | nil =>
    show parseStrRest ('\"' :: rest) = some ([], rest)
    rw [parseStrRest.eq_def]
    simp
  | cons c l ihl =>
    by_cases hc : c = '\"' ∨ c = '\\'
    · have hesc : escChars (c :: l) = '\\' :: c :: escChars l := by
        rw [escChars.eq_def]
        simp [hc]
      rw [hesc, List.cons_append, List.cons_append, parseStrRest.eq_def]
      simp [ihl]
    · push_neg at hc
      have hesc : escChars (c :: l) = c :: escChars l := by
        rw [escChars.eq_def]
        simp [hc.1, hc.2]
      rw [hesc, List.cons_append, parseStrRest.eq_def]
      simp [hc.1, hc.2, ihl]

/-- Characters that can start the canonical encoding of a value. -/
def startsValue (c : Char) : Bool :=
  c == '\"' || c == '[' || c == '\x7b' || c == '-' || c == 'n' || c == 't' || c == 'f' || isDigitCh c

theorem natChars_head (n : Nat) : ∃ c t, natChars n = c :: t ∧ isDigitCh c = true := by
  obtain ⟨hd, _⟩ := natCharsAux_spec n n le_rfl
  unfold natChars
  cases hcons : natCharsAux n n with
  | nil => exact absurd hcons (natCharsAux_ne_nil n n)
  | cons c t => exact ⟨c, t, rfl, hd c (hcons ▸ List.mem_cons_self c t)⟩

theorem natCharsAux_digits : ∀ fuel n, n ≤ fuel →
    ∀ c ∈ natCharsAux fuel n, ∃ d, d < 10 ∧ c = digitChar d := by
  intro fuel
  induction fuel with
  | zero =>
    intro n hn c hc
    have h0 : n = 0 := Nat.le_zero.mp hn
    subst h0
    simp [natCharsAux] at hc
    subst hc
    exact ⟨0, by omega, rfl⟩
  | succ fuel ih =>
    intro n _ c hc
    by_cases hlt : n < 10
    · simp [natCharsAux, hlt] at hc
      subst hc
      exact ⟨n, hlt, rfl⟩
    · have hdiv : n / 10 ≤ fuel := by
        have h1 : n / 10 < n := Nat.div_lt_self (by omega) (by omega)
        omega
      simp [natCharsAux, hlt] at hc
      rcases hc with hc | hc
      · exact ih (n / 10) hdiv c hc
      · subst hc
        exact ⟨n % 10, Nat.mod_lt n (by omega), rfl⟩

theorem natChars_headD (n : Nat) : ∃ d t, natChars n = digitChar d :: t ∧ d < 10 := by
  unfold natChars
  cases hcons : natCharsAux n n with
  | nil => exact absurd hcons (natCharsAux_ne_nil n n)
  | cons c t =>
    obtain ⟨d, hd, hcd⟩ := natCharsAux_digits n n le_rfl c (hcons ▸ List.mem_cons_self c t)
    exact ⟨d, t, by rw [hcd], hd⟩

theorem encodeVal_head (v : JsonValue) : ∃ c t, encodeVal v = c :: t ∧ startsValue c = true := by
  cases v with
  | null => exact ⟨'n', ['u', 'l', 'l'], by simp [encodeVal], by decide⟩
  | bool b => cases b with
    | true => exact ⟨'t', ['r', 'u', 'e'], by simp [encodeVal], by decide⟩
    | false => exact ⟨'f', ['a', 'l', 's', 'e'], by simp [encodeVal], by decide⟩
  | num n =>
    cases n with
    | ofNat m =>
      obtain ⟨c, t, hct, hdig⟩ := natChars_head m
      exact ⟨c, t, by simp [encodeVal, intChars, hct], by simp [startsValue, hdig]⟩
    | negSucc m => exact ⟨'-', natChars (m + 1), by simp [encodeVal, intChars], by decide⟩
  | str s => exact ⟨'\"', escChars s.data ++ ['\"'], by simp [encodeVal], by decide⟩
  | arr elems => cases elems with
    | nil => exact ⟨'[', [']'], by simp [encodeVal], by decide⟩
    | cons x xs => exact ⟨'[', encodeVal x ++ encodeArrTail xs, by simp [encodeVal], by decide⟩
  | obj fields => cases fields with
    | nil => exact ⟨'\x7b', ['\x7d'], by simp [encodeVal], by decide⟩
    | cons fv fs => exact ⟨'\x7b', encodeField fv ++ encodeObjTail fs, by simp [encodeVal], by decide⟩

theorem startsValue_ne_close (c : Char) (h : startsValue c = true) :
    ¬ c = ']' ∧ ¬ c = '\x7d' := by
  constructor <;> rintro rfl <;> exact absurd h (by decide)

theorem isDigit_not_start (c : Char) (h : isDigitCh c = true) :
    ¬ c = '\"' ∧ ¬ c = '[' ∧ ¬ c = '\x7b' ∧ ¬ c = '-' ∧ ¬ c = 'n' ∧ ¬ c = 't' ∧ ¬ c = 'f' := by
  refine ⟨?_, ?_, ?_, ?_, ?_, ?_, ?_⟩ <;> rintro rfl <;> exact absurd h (by decide)

theorem encodeVal_length_pos (v : JsonValue) : 1 ≤ (encodeVal v).length := by
  obtain ⟨c, t, hct, _⟩ := encodeVal_head v
  simp [hct]

theorem encodeArrTail_length_pos (xs : List JsonValue) : 1 ≤ (encodeArrTail xs).length := by
  cases xs <;> simp [encodeArrTail]

theorem encodeObjTail_length_pos (fs : List (String × JsonValue)) :
    1 ≤ (encodeObjTail fs).length := by
  cases fs <;> simp [encodeObjTail]

theorem noDigitHead_arrTail (xs : List JsonValue) (rest : List Char) :
    noDigitHead (encodeArrTail xs ++ rest) = true := by
  cases xs <;> simp [encodeArrTail] <;> rfl

theorem noDigitHead_objTail (fs : List (String × JsonValue)) (rest : List Char) :
    noDigitHead (encodeObjTail fs ++ rest) = true := by
  cases fs <;> simp [encodeObjTail] <;> rfl

theorem parseM_quote (f : Nat) (cs : List Char) :
    parseM (f + 1) PMode.val ('\"' :: cs) =
      match parseStrRest cs with
      | none => none
      | some (s, r) => some (JsonValue.str ⟨s⟩, r) := rfl

theorem parseM_lbrack (f : Nat) (c2 : Char) (cs2 : List Char) :
    parseM (f + 1) PMode.val ('[' :: c2 :: cs2) =
      if c2 = ']' then some (JsonValue.arr [], cs2)
      else
        match parseM f PMode.val (c2 :: cs2) with
        | some (v, r) =>
          match parseM f PMode.arrT r with
          | some (JsonValue.arr vs, r') => some (JsonValue.arr (v :: vs), r')
          | _ => none
        | none => none := rfl

theorem parseM_lbrace (f : Nat) (c2 : Char) (cs2 : List Char) :
    parseM (f + 1) PMode.val ('\x7b' :: c2 :: cs2) =
      if c2 = '\x7d' then some (JsonValue.obj [], cs2)
      else
        match parseM f PMode.field (c2 :: cs2) with
        | some (JsonValue.obj [fv], r) =>
          match parseM f PMode.objT r with
          | some (JsonValue.obj fs, r') => some (JsonValue.obj (fv :: fs), r')
          | _ => none
        | _ => none := rfl

theorem parseM_dash (f : Nat) (cs : List Char) :
    parseM (f + 1) PMode.val ('-' :: cs) =
      match parseNat cs with
      | some (n, r) => some (JsonValue.num (-(n : Int)), r)
      | none => none := rfl

theorem parseM_digitChar (f d : Nat) (hd : d < 10) (cs : List Char) :
    parseM (f + 1) PMode.val (digitChar d :: cs) =
      match parseNat (digitChar d :: cs) with
      | some (n, r) => some (JsonValue.num (Int.ofNat n), r)
      | none => none := by
  interval_cases d <;> rfl

theorem parseM_arrT_rbrack (f : Nat) (cs : List Char) :
    parseM (f + 1) PMode.arrT (']' :: cs) = some (JsonValue.arr [], cs) := rfl

theorem parseM_arrT_comma (f : Nat) (cs : List Char) :
    parseM (f + 1) PMode.arrT (',' :: cs) =
      match parseM f PMode.val cs with
      | some (v, r) =>
        match parseM f PMode.arrT r with
        | some (JsonValue.arr vs, r') => some (JsonValue.arr (v :: vs), r')
        | _ => none
      | none => none := rfl

theorem parseM_field_quote (f : Nat) (cs : List Char) :
    parseM (f + 1) PMode.field ('\"' :: cs) =
      match parseStrRest cs with
      | some (k, ':' :: r) =>
        match parseM f PMode.val r with
        | some (v, r') => some (JsonValue.obj [(⟨k⟩, v)], r')
        | none => none
      | _ => none := rfl

theorem parseM_objT_rbrace (f : Nat) (cs : List Char) :
    parseM (f + 1) PMode.objT ('\x7d' :: cs) = some (JsonValue.obj [], cs) := rfl

theorem parseM_objT_comma (f : Nat) (cs : List Char) :
    parseM (f + 1) PMode.objT (',' :: cs) =
      match parseM f PMode.field cs with
      | some (JsonValue.obj [fv], r) =>
        match parseM f PMode.objT r with
        | some (JsonValue.obj fs, r') => some (JsonValue.obj (fv :: fs), r')
        | _ => none
      | _ => none := rfl

theorem encodeField_length_pos (fv : String × JsonValue) : 1 ≤ (encodeField fv).length := by
  obtain ⟨k, v⟩ := fv
  simp [encodeField]

theorem parse_encode_aux : ∀ N : Nat,
    (∀ v : JsonValue, sizeOf v < N → ∀ f rest, (encodeVal v).length < f →
        noDigitHead rest = true →
        parseM f PMode.val (encodeVal v ++ rest) = some (v, rest))
    ∧ (∀ xs : List JsonValue, sizeOf xs < N → ∀ f rest, (encodeArrTail xs).length < f →
        noDigitHead rest = true →
        parseM f PMode.arrT (encodeArrTail xs ++ rest) = some (JsonValue.arr xs, rest))
    ∧ (∀ fv : String × JsonValue, sizeOf fv < N → ∀ f rest, (encodeField fv).length < f →
        noDigitHead rest = true →
        parseM f PMode.field (encodeField fv ++ rest) = some (JsonValue.obj [fv], rest))
    ∧ (∀ fs : List (String × JsonValue), sizeOf fs < N → ∀ f rest, (encodeObjTail fs).length < f →
        noDigitHead rest = true →
        parseM f PMode.objT (encodeObjTail fs ++ rest) = some (JsonValue.obj fs, rest)) := by
  intro N
  induction N with
  | zero =>
    refine ⟨?_, ?_, ?_, ?_⟩ <;> intro x hx <;> exact absurd hx (by omega)
  | succ N ih =>
    obtain ⟨ihV, ihA, ihF, ihO⟩ := ih
    refine ⟨?_, ?_, ?_, ?_⟩
    · intro v hs f rest hf hr
      cases v with
      | null =>
        have he : encodeVal JsonValue.null = 'n' :: 'u' :: 'l' :: 'l' :: [] := by
          simp [encodeVal]
        rw [he] at hf ⊢
        cases f with
        | zero => simp at hf <;> omega
        | succ f' => rfl
      | bool b =>
        cases b with
        | true =>
          have he : encodeVal (JsonValue.bool true) = 't' :: 'r' :: 'u' :: 'e' :: [] := by
            simp [encodeVal]
          rw [he] at hf ⊢
          cases f with
          | zero => simp at hf <;> omega
          | succ f' => rfl
        | false =>
          have he : encodeVal (JsonValue.bool false) = 'f' :: 'a' :: 'l' :: 's' :: 'e' :: [] := by
            simp [encodeVal]
          rw [he] at hf ⊢
          cases f with
          | zero => simp at hf <;> omega
          | succ f' => rfl
      | num n =>
        cases n with
        | ofNat m =>
          have he : encodeVal (JsonValue.num (Int.ofNat m)) = natChars m := by
            simp [encodeVal, intChars]
          obtain ⟨d, t, hdt, hd⟩ := natChars_headD m
          rw [he, hdt] at hf ⊢
          cases f with
          | zero => simp at hf <;> omega
          | succ f' =>
            rw [List.cons_append, parseM_digitChar f' d hd]
            rw [show digitChar d :: (t ++ rest) = (digitChar d :: t) ++ rest from rfl, ← hdt]
            rw [parseNat_natChars m rest hr]
        | negSucc m =>
          have he : encodeVal (JsonValue.num (Int.negSucc m)) = '-' :: natChars (m + 1) := by
            simp [encodeVal, intChars]
          rw [he] at hf ⊢
          cases f with
          | zero => simp at hf <;> omega
          | succ f' =>
            rw [List.cons_append, parseM_dash, parseNat_natChars (m + 1) rest hr]
            simp [Int.negSucc_eq] <;> ring
      | str s =>
        have he : encodeVal (JsonValue.str s) = '\"' :: (escChars s.data ++ ['\"']) := by
          simp [encodeVal]
        rw [he] at hf ⊢
        cases f with
        | zero => simp at hf <;> omega
        | succ f' =>
          rw [List.cons_append, List.append_assoc]
          rw [show (['\"'] : List Char) ++ rest = '\"' :: rest from rfl]
          rw [parseM_quote, parseStrRest_esc]
      | arr elems =>
        cases elems with
        | nil =>
          have he : encodeVal (JsonValue.arr []) = '[' :: ']' :: [] := by
            simp [encodeVal]
          rw [he] at hf ⊢
          cases f with
          | zero => simp at hf <;> omega
          | succ f' => rfl
        | cons x xs =>
          have he : encodeVal (JsonValue.arr (x :: xs)) = '[' :: (encodeVal x ++ encodeArrTail xs) := by
            simp [encodeVal]
          rw [he] at hf ⊢
          obtain ⟨c, t, hct, hcs⟩ := encodeVal_head x
          obtain ⟨hne1, _⟩ := startsValue_ne_close c hcs
          have hlx := encodeVal_length_pos x
          have hlt := encodeArrTail_length_pos xs
          simp at hs hf
          cases f with
          | zero => omega
          | succ f' =>
            rw [List.cons_append, List.append_assoc, hct, List.cons_append, parseM_lbrack,
              if_neg hne1]
            rw [show c :: (t ++ (encodeArrTail xs ++ rest))
                = encodeVal x ++ (encodeArrTail xs ++ rest) from by simp [hct]]
            rw [ihV x (by omega) f' (encodeArrTail xs ++ rest) (by omega)
              (noDigitHead_arrTail xs rest)]
            simp only [ihA xs (by omega) f' rest (by omega) hr]
      | obj fields =>
        cases fields with
        | nil =>
          have he : encodeVal (JsonValue.obj []) = '\x7b' :: '\x7d' :: [] := by
            simp [encodeVal]
          rw [he] at hf ⊢
          cases f with
          | zero => simp at hf <;> omega
          | succ f' => rfl
        | cons fv fs =>
          have he : encodeVal (JsonValue.obj (fv :: fs))
              = '\x7b' :: (encodeField fv ++ encodeObjTail fs) := by
            simp [encodeVal]
          obtain ⟨k, v⟩ := fv
          have hef : encodeField (k, v) = '\"' :: (escChars k.data ++ ['\"', ':'] ++ encodeVal v) := by
            simp [encodeField]
          rw [he] at hf ⊢
          have hlf := encodeField_length_pos (k, v)
          have hlt := encodeObjTail_length_pos fs
          simp at hs hf
          cases f with
          | zero => omega
          | succ f' =>
            rw [List.cons_append, List.append_assoc, hef, List.cons_append, parseM_lbrace,
              if_neg (by decide : ¬ ('\"' : Char) = '\x7d')]
            rw [show '\"' :: ((escChars k.data ++ ['\"', ':'] ++ encodeVal v) ++ (encodeObjTail fs ++ rest))
                = encodeField (k, v) ++ (encodeObjTail fs ++ rest) from by simp [hef]]
            rw [ihF (k, v) (by simp; omega) f' (encodeObjTail fs ++ rest) (by omega)
              (noDigitHead_objTail fs rest)]
            simp only [ihO fs (by omega) f' rest (by omega) hr]
    · intro xs hs f rest hf hr
      cases xs with
      | nil =>
        have he : encodeArrTail ([] : List JsonValue) = [']'] := by simp [encodeArrTail]
        rw [he] at hf ⊢
        cases f with
        | zero => simp at hf <;> omega
        | succ f' => rfl
      | cons x xs =>
        have he : encodeArrTail (x :: xs) = ',' :: (encodeVal x ++ encodeArrTail xs) := by
          simp [encodeArrTail]
        rw [he] at hf ⊢
        have hlx := encodeVal_length_pos x
        have hlt := encodeArrTail_length_pos xs
        simp at hs hf
        cases f with
        | zero => omega
        | succ f' =>
          rw [List.cons_append, List.append_assoc, parseM_arrT_comma]
          rw [ihV x (by omega) f' (encodeArrTail xs ++ rest) (by omega)
            (noDigitHead_arrTail xs rest)]
          simp only [ihA xs (by omega) f' rest (by omega) hr]
    · intro fv hs f rest hf hr
      obtain ⟨k, v⟩ := fv
      have he : encodeField (k, v) = '\"' :: (escChars k.data ++ ['\"', ':'] ++ encodeVal v) := by
        simp [encodeField]
      rw [he] at hf ⊢
      have hlv := encodeVal_length_pos v
      simp at hs hf
      cases f with
      | zero => omega
      | succ f' =>
        rw [List.cons_append, List.append_assoc, List.append_assoc]
        rw [show (['\"', ':'] : List Char) ++ (encodeVal v ++ rest)
            = '\"' :: ':' :: (encodeVal v ++ rest) from rfl]
        rw [parseM_field_quote, parseStrRest_esc]
        simp only [ihV v (by omega) f' rest (by omega) hr]
    · intro fs hs f rest hf hr
      cases fs with
      | nil =>
        have he : encodeObjTail ([] : List (String × JsonValue)) = ['\x7d'] := by
          simp [encodeObjTail]
        rw [he] at hf ⊢
        cases f with
        | zero => simp at hf <;> omega
        | succ f' => rfl
      | cons fv fs =>
        have he : encodeObjTail (fv :: fs) = ',' :: (encodeField fv ++ encodeObjTail fs) := by
          simp [encodeObjTail]
        rw [he] at hf ⊢
        have hlf := encodeField_length_pos fv
        have hlt := encodeObjTail_length_pos fs
        simp at hs hf
        cases f with
        | zero => omega
        | succ f' =>
          rw [List.cons_append, List.append_assoc, parseM_objT_comma]
          rw [ihF fv (by omega) f' (encodeObjTail fs ++ rest) (by omega)
            (noDigitHead_objTail fs rest)]
          simp only [ihO fs (by omega) f' rest (by omega) hr]

/-- The codec round-trips every JSON-representable value. -/
theorem decode_encode (v : JsonValue) : decode (encode v) = Except.ok v := by
  have h := (parse_encode_aux (sizeOf v + 1)).1 v (by omega) ((encodeVal v).length + 1) []
    (by omega) rfl
  rw [List.append_nil] at h
  show (match parseM ((encodeVal v).length + 1) PMode.val (encodeVal v) with
    | some (w, []) => Except.ok w
    | _ => Except.error DecodeError.malformed) = Except.ok v
  rw [h]

theorem encode_ne_empty (v : JsonValue) : encode v ≠ "" := by
  obtain ⟨c, t, hct, _⟩ := encodeVal_head v
  intro h
  have hd : encodeVal v = [] := congrArg String.data h
  rw [hct] at hd
  exact List.cons_ne_nil c t hd

theorem storeLookup_del (s : Store) (k' k : String) :
    storeLookup (storeDel s k') k = if k = k' then none else storeLookup s k := by
  induction s with
  | nil => by_cases h : k = k' <;> simp [storeDel, storeLookup, h]
  | cons kv s ih =>
    obtain ⟨k0, e0⟩ := kv
    by_cases h0 : k0 = k'
    · subst h0
      rw [show storeDel ((k0, e0) :: s) k0 = storeDel s k0 from by simp [storeDel]]
      rw [ih]
      by_cases hk : k = k0
      · subst hk
        simp
      · have hk0 : ¬ k0 = k := fun h => hk h.symm
        simp [storeLookup, hk, hk0]
    · rw [show storeDel ((k0, e0) :: s) k' = (k0, e0) :: storeDel s k' from by simp [storeDel, h0]]
      by_cases hk : k0 = k
      · subst hk
        simp [storeLookup, h0]
      · simp [storeLookup, hk, ih]

theorem storeLookup_append (s1 s2 : Store) (k : String)
    (h : storeLookup s1 k = none) :
    storeLookup (s1 ++ s2) k = storeLookup s2 k := by
  induction s1 with
  | nil => simp
  | cons kv s ih =>
    obtain ⟨k0, e0⟩ := kv
    by_cases hk : k0 = k
    · subst hk
      simp [storeLookup] at h
    · simp [storeLookup, hk] at h ⊢
      exact ih h

theorem storeLookup_set (s : Store) (k : String) (e : CacheEntry) :
    storeLookup (storeSet s k e) k = some e := by
  unfold storeSet
  rw [storeLookup_append _ _ _ (by rw [storeLookup_del]; simp)]
  simp [storeLookup]

theorem storeDel_absent (s : Store) (k : String) (h : storeLookup s k = none) :
    storeDel s k = s := by
  induction s with
  | nil => rfl
  | cons kv s ih =>
    obtain ⟨k0, e0⟩ := kv
    by_cases hk : k0 = k
    · subst hk; simp [storeLookup] at h
    · simp [storeLookup, hk] at h
      simp [storeDel, hk, ih h]

theorem storeDel_idem (s : Store) (k : String) :
    storeDel (storeDel s k) k = storeDel s k :=
  storeDel_absent _ _ (by rw [storeLookup_del]; simp)

theorem storeLookup_foldl_del (ks : List String) (s : Store) (k : String) :
    storeLookup (ks.foldl storeDel s) k = if k ∈ ks then none else storeLookup s k := by
  induction ks generalizing s with
  | nil => simp
  | cons k0 ks ih =>
    rw [List.foldl_cons, ih]
    by_cases hm : k ∈ ks
    · simp [hm]
    · by_cases hk : k = k0
      · subst hk
        simp [hm, storeLookup_del]
      · simp [hm, hk, storeLookup_del]

theorem storeLookup_mem (s : Store) (k : String) (e : CacheEntry)
    (h : storeLookup s k = some e) : k ∈ s.map Prod.fst := by
  induction s with
  | nil => simp [storeLookup] at h
  | cons kv s ih =>
    obtain ⟨k0, e0⟩ := kv
    by_cases hk : k0 = k
    · subst hk; simp
    · simp [storeLookup, hk] at h
      simp [ih h]

theorem string_data_append (x y : String) : (x ++ y).data = x.data ++ y.data := rfl

theorem chopStar_append_star (l : List Char) : chopStar (l ++ ['*']) = l := by
  induction l with
  | nil => rfl
  | cons c l ih =>
    cases l with
    | nil => simp [chopStar] <;> rfl
    | cons c2 l2 => simp [chopStar] at ih ⊢ <;> exact ih

theorem scanKeys_mem (s : Store) (pat k : String) :
    k ∈ scanKeys s pat ↔ k ∈ s.map Prod.fst ∧ patKeyMatch pat k = true := by
  unfold scanKeys
  simp [List.mem_filter]

theorem patKeyMatch_clear (a : RedisCacheAdapter) (k : String) :
    patKeyMatch (clearPattern a) k = (a.keyPrefix ++ ":").data.isPrefixOf k.data := by
  unfold patKeyMatch clearPattern
  have h1 : (a.keyPrefix ++ ":*").data = (a.keyPrefix ++ ":").data ++ ['*'] := by
    rw [string_data_append, string_data_append]
    simp
  rw [h1, chopStar_append_star]

theorem clear_lookup_match (a : RedisCacheAdapter) (s : Store) (k : String)
    (h : (a.keyPrefix ++ ":").data.isPrefixOf k.data = true) :
    storeLookup (clearRun a s).2 k = none := by
  unfold clearRun
  by_cases hemp : (scanKeys s (clearPattern a)).isEmpty
  · simp only [hemp, if_pos]
    cases hcl : storeLookup s k with
    | none => rfl
    | some e =>
      have hmem := storeLookup_mem s k e hcl
      have hk : k ∈ scanKeys s (clearPattern a) :=
        (scanKeys_mem s _ k).mpr ⟨hmem, by rw [patKeyMatch_clear]; exact h⟩
      rw [List.isEmpty_iff] at hemp
      rw [hemp] at hk
      simp at hk
  · simp only [hemp, if_neg, Bool.false_eq_true, not_false_eq_true]
    rw [storeLookup_foldl_del]
    by_cases hm : k ∈ scanKeys s (clearPattern a)
    · simp [hm]
    · simp only [hm, if_neg, not_false_eq_true]
      cases hcl : storeLookup s k with
      | none => rfl
      | some e =>
        have hmem := storeLookup_mem s k e hcl
        exact absurd ((scanKeys_mem s _ k).mpr
          ⟨hmem, by rw [patKeyMatch_clear]; exact h⟩) hm

theorem clear_lookup_nomatch (a : RedisCacheAdapter) (s : Store) (k : String)
    (h : ¬ (a.keyPrefix ++ ":").data.isPrefixOf k.data = true) :
    storeLookup (clearRun a s).2 k = storeLookup s k := by
  unfold clearRun
  by_cases hemp : (scanKeys s (clearPattern a)).isEmpty
  · simp [hemp]
  · simp only [hemp, if_neg, Bool.false_eq_true, not_false_eq_true]
    rw [storeLookup_foldl_del]
    have hm : ¬ k ∈ scanKeys s (clearPattern a) := by
      intro hmem
      obtain ⟨_, hpat⟩ := (scanKeys_mem s _ k).mp hmem
      rw [patKeyMatch_clear] at hpat
      exact h hpat
    simp [hm]

theorem getKey_hasPfx (a : RedisCacheAdapter) (k : String) :
    (a.keyPrefix ++ ":").data.isPrefixOf (_getKey a k).data = true := by
  unfold _getKey
  rw [string_data_append]
  exact List.isPrefixOf_iff_prefix.mpr (List.prefix_append _ _)

theorem adapterGet_congr (a : RedisCacheAdapter) (s1 s2 : Store) (k : String) (age : Nat)
    (h : storeLookup s1 (_getKey a k) = storeLookup s2 (_getKey a k)) :
    adapterGet a s1 k age = adapterGet a s2 k age := by
  unfold adapterGet storeGet
  rw [h]

theorem adapterSetCmd_key (a : RedisCacheAdapter) (k : String) (v : JsonValue)
    (o : String) (arg : Option Nat) :
    (adapterSetCmd a k v o arg).key = _getKey a k := by
  unfold adapterSetCmd
  cases arg with
  | some e => by_cases he : e = 0 <;> simp [he, StoreCmd.key]
  | none =>
    cases a.expiration with
    | none => rfl
    | some e => by_cases he : e = 0 <;> simp [he, StoreCmd.key]

theorem adapterSetCmd_cases (a : RedisCacheAdapter) (k : String) (v : JsonValue)
    (o : String) (arg : Option Nat) :
    (adapterSetCmd a k v o arg = StoreCmd.setCmd (_getKey a k) (encode v)
      ∧ (effectiveExpiration a arg = none ∨ effectiveExpiration a arg = some 0))
    ∨ ∃ e, ¬ e = 0 ∧ effectiveExpiration a arg = some e
      ∧ adapterSetCmd a k v o arg = StoreCmd.setPXCmd (_getKey a k) (encode v) e := by
  unfold adapterSetCmd effectiveExpiration
  cases arg with
  | some e =>
    by_cases he : e = 0
    · subst he
      left
      exact ⟨by simp, Or.inr rfl⟩
    · right
      exact ⟨e, he, rfl, by simp [he]⟩
  | none =>
    cases a.expiration with
    | none => left; exact ⟨rfl, Or.inl rfl⟩
    | some e =>
      by_cases he : e = 0
      · subst he
        left
        exact ⟨by simp, Or.inr rfl⟩
      · right
        exact ⟨e, he, rfl, by simp [he]⟩

theorem storeGet_set_noTTL (s : Store) (k : String) (d : String) (age : Nat) :
    storeGet (storeSet s k (CacheEntry.mk d none)) k age = some d := by
  unfold storeGet
  rw [storeLookup_set]

theorem storeGet_set_TTL (s : Store) (k : String) (d : String) (px age : Nat)
    (hage : age < px) :
    storeGet (storeSet s k (CacheEntry.mk d (some px))) k age = some d := by
  unfold storeGet
  rw [storeLookup_set]
  simp [hage]

/-- C1: for every `clear()` call in which the enumeration phase yields zero
keys matching `keyPrefix + ":*"`, the execution phase is a no-op: no
batched-delete command is submitted to the store (the empty pipeline `exec`
resolves without a store round trip), the store is untouched, and the sweep
resolves without error. -/
theorem C1_empty_clear_noop (a : RedisCacheAdapter) (s : Store)
    (h : scanKeys s (clearPattern a) = []) :
    (clearRun a s).1 = none ∧ (clearRun a s).2 = s := by
  unfold clearRun
  simp [h]

theorem C1_empty_clear_noop_witness :
    (clearRun (mkAdapter none none) [("other:x", CacheEntry.mk "0" none)]).1 = none
    ∧ (clearRun (mkAdapter none none) [("other:x", CacheEntry.mk "0" none)]).2
      = [("other:x", CacheEntry.mk "0" none)] :=
  C1_empty_clear_noop (mkAdapter none none) [("other:x", CacheEntry.mk "0" none)] (by decide)

/-- C2 fails as stated: a "different prefix" Q whose physical keys also
begin with `P ++ ":"` (here P = "a", Q = "a:b") is swept away by the
P-adapter's `clear()`.  The store holds one key written under Q; after
`clear()` on the P-adapter the key is no longer retrievable under Q,
although the claim promises it remains retrievable. -/
theorem C2_counterexample :
    adapterGet (mkAdapter (some "a:b") none)
      (clearRun (mkAdapter (some "a") none) [("a:b:x", CacheEntry.mk "null" none)]).2 "x" 0
      = Except.ok none
    ∧ adapterGet (mkAdapter (some "a:b") none)
      [("a:b:x", CacheEntry.mk "null" none)] "x" 0
      = Except.ok (some JsonValue.null) := ⟨rfl, rfl⟩

/-- C2 (amended): `clear()` on the P-adapter deletes exactly the physical
keys starting with `P ++ ":"` present at the start of enumeration and
leaves every other key unchanged; hence nothing is retrievable under P
afterwards, and keys under a different prefix Q stay retrievable provided
their physical keys do not themselves start with `P ++ ":"`. -/
theorem C2_clear_exact_scope (p : RedisCacheAdapter) (s : Store) :
    (∀ k : String, (p.keyPrefix ++ ":").data.isPrefixOf k.data = true →
        storeLookup (clearRun p s).2 k = none)
    ∧ (∀ k : String, ¬ (p.keyPrefix ++ ":").data.isPrefixOf k.data = true →
        storeLookup (clearRun p s).2 k = storeLookup s k)
    ∧ (∀ (k : String) (age : Nat), adapterGet p (clearRun p s).2 k age = Except.ok none)
    ∧ (∀ (q : RedisCacheAdapter) (k : String) (age : Nat),
        ¬ (p.keyPrefix ++ ":").data.isPrefixOf (_getKey q k).data = true →
        adapterGet q (clearRun p s).2 k age = adapterGet q s k age) := by
  refine ⟨clear_lookup_match p s, clear_lookup_nomatch p s, ?_, ?_⟩
  · intro k age
    unfold adapterGet
    rw [show storeGet (clearRun p s).2 (_getKey p k) age = none from by
      unfold storeGet
      rw [clear_lookup_match p s _ (getKey_hasPfx p k)]]
  · intro q k age hq
    exact adapterGet_congr q _ _ k age (clear_lookup_nomatch p s _ hq)

theorem C2_clear_exact_scope_witness :
    storeLookup (clearRun (mkAdapter (some "a") none)
      [("a:1", CacheEntry.mk "true" none), ("b:2", CacheEntry.mk "false" none)]).2 "a:1" = none
    ∧ storeLookup (clearRun (mkAdapter (some "a") none)
      [("a:1", CacheEntry.mk "true" none), ("b:2", CacheEntry.mk "false" none)]).2 "b:2"
      = storeLookup [("a:1", CacheEntry.mk "true" none), ("b:2", CacheEntry.mk "false" none)] "b:2"
    ∧ adapterGet (mkAdapter (some "a") none) (clearRun (mkAdapter (some "a") none)
      [("a:1", CacheEntry.mk "true" none), ("b:2", CacheEntry.mk "false" none)]).2 "1" 0
      = Except.ok none
    ∧ adapterGet (mkAdapter (some "b") none) (clearRun (mkAdapter (some "a") none)
      [("a:1", CacheEntry.mk "true" none), ("b:2", CacheEntry.mk "false" none)]).2 "2" 0
      = adapterGet (mkAdapter (some "b") none)
        [("a:1", CacheEntry.mk "true" none), ("b:2", CacheEntry.mk "false" none)] "2" 0 :=
  ⟨(C2_clear_exact_scope (mkAdapter (some "a") none)
      [("a:1", CacheEntry.mk "true" none), ("b:2", CacheEntry.mk "false" none)]).1 "a:1" (by decide),
   (C2_clear_exact_scope (mkAdapter (some "a") none)
      [("a:1", CacheEntry.mk "true" none), ("b:2", CacheEntry.mk "false" none)]).2.1 "b:2" (by decide),
   (C2_clear_exact_scope (mkAdapter (some "a") none)
      [("a:1", CacheEntry.mk "true" none), ("b:2", CacheEntry.mk "false" none)]).2.2.1 "1" 0,
   (C2_clear_exact_scope (mkAdapter (some "a") none)
      [("a:1", CacheEntry.mk "true" none), ("b:2", CacheEntry.mk "false" none)]).2.2.2
      (mkAdapter (some "b") none) "2" 0 (by decide)⟩

/-- C3: `set(k, v, origin)` followed by `get(k)`, with no intervening
removal and no elapsed expiration (the read happens at an age below any
effective TTL), returns exactly the value written — the codec round-trips
every JSON-representable value of the model (numbers narrowed to integers
as documented). -/
theorem C3_set_get_roundtrip (a : RedisCacheAdapter) (s : Store) (k : String)
    (v : JsonValue) (o : String) (arg : Option Nat) (age : Nat)
    (hlive : ∀ e, effectiveExpiration a arg = some e → ¬ e = 0 → age < e) :
    adapterGet a (adapterSetState a s k v o arg) k age = Except.ok (some v) := by
  have hget : storeGet (adapterSetState a s k v o arg) (_getKey a k) age = some (encode v) := by
    unfold adapterSetState
    rcases adapterSetCmd_cases a k v o arg with ⟨hcmd, _⟩ | ⟨e, hne, heff, hcmd⟩
    · rw [hcmd]
      exact storeGet_set_noTTL s (_getKey a k) (encode v) age
    · rw [hcmd]
      exact storeGet_set_TTL s (_getKey a k) (encode v) e age (hlive e heff hne)
  unfold adapterGet
  rw [hget]
  simp [encode_ne_empty v, decode_encode v]

theorem C3_set_get_roundtrip_witness :
    adapterGet (mkAdapter none none)
      (adapterSetState (mkAdapter none none) [] "user:1"
        (JsonValue.obj [("name", JsonValue.str "a")]) "test" none) "user:1" 0
      = Except.ok (some (JsonValue.obj [("name", JsonValue.str "a")])) :=
  C3_set_get_roundtrip (mkAdapter none none) [] "user:1"
    (JsonValue.obj [("name", JsonValue.str "a")]) "test" none 0
    (by intro e he hne; simp [effectiveExpiration, mkAdapter] at he)

/-- C4: every operation addresses the physical key
`keyPrefix ++ ":" ++ logicalKey` — a pure, total string concatenation
(`_getKey`) — and bulk invalidation enumerates exactly the pattern
`keyPrefix ++ ":*"`. -/
theorem C4_physical_key (a : RedisCacheAdapter) (k : String) (v : JsonValue)
    (o : String) (arg : Option Nat) :
    _getKey a k = a.keyPrefix ++ ":" ++ k
    ∧ adapterGetCmd a k = StoreCmd.getCmd (a.keyPrefix ++ ":" ++ k)
    ∧ (adapterSetCmd a k v o arg).key = a.keyPrefix ++ ":" ++ k
    ∧ adapterRemoveCmds a k = [StoreCmd.delCmd (a.keyPrefix ++ ":" ++ k)]
    ∧ clearPattern a = a.keyPrefix ++ ":*" :=
  ⟨rfl, rfl, adapterSetCmd_key a k v o arg, rfl, rfl⟩

/-- C5: a physical key that is absent from the store (never written, or
already expired — the raw read returns nothing) makes `get` return the
absent value, never an error; decoding is not attempted. -/
theorem C5_miss_returns_absent (a : RedisCacheAdapter) (s : Store) (k : String)
    (age : Nat) (h : storeGet s (_getKey a k) age = none) :
    adapterGet a s k age = Except.ok none := by
  unfold adapterGet
  rw [h]

theorem C5_miss_returns_absent_witness :
    adapterGet (mkAdapter none none) [] "k" 0 = Except.ok none :=
  C5_miss_returns_absent (mkAdapter none none) [] "k" 0 rfl

/-- C6: a non-empty stored blob that is not valid encoded data makes `get`
fail with the decode error, propagated unchanged — never silently converted
into a miss. -/
theorem C6_decode_error_propagates (a : RedisCacheAdapter) (s : Store) (k : String)
    (age : Nat) (d : String) (e : DecodeError)
    (h1 : storeGet s (_getKey a k) age = some d) (h2 : ¬ d = "")
    (h3 : decode d = Except.error e) :
    adapterGet a s k age = Except.error e := by
  unfold adapterGet
  rw [h1]
  simp [h2, h3]

theorem C6_decode_error_propagates_witness :
    adapterGet (mkAdapter none none) [("mikro:k", CacheEntry.mk "x" none)] "k" 0
      = Except.error DecodeError.malformed :=
  C6_decode_error_propagates (mkAdapter none none)
    [("mikro:k", CacheEntry.mk "x" none)] "k" 0 "x" DecodeError.malformed
    rfl (by decide) rfl

/-- C7: the write command of `set` follows the spec's expiration policy:
the effective expiration is the override when supplied, else the adapter's
default; when present and truthy the write carries the millisecond `PX`
expiry, otherwise it is a plain write with no TTL. -/
theorem C7_expiration_policy (a : RedisCacheAdapter) (k : String) (v : JsonValue)
    (o : String) (arg : Option Nat) :
    adapterSetCmd a k v o arg = specSetCommand a k v arg := by
  unfold adapterSetCmd specSetCommand effectiveExpiration
  cases arg with
  | some e =>
    cases e with
    | zero => simp
    | succ e' => simp
  | none =>
    cases a.expiration with
    | none => simp
    | some e =>
      cases e with
      | zero => simp
      | succ e' => simp

/-- C8: the `origin` argument has no effect: two `set` calls differing only
in origin issue the identical command and produce the identical store. -/
theorem C8_origin_ignored (a : RedisCacheAdapter) (s : Store) (k : String)
    (v : JsonValue) (o1 o2 : String) (arg : Option Nat) :
    adapterSetCmd a k v o1 arg = adapterSetCmd a k v o2 arg
    ∧ adapterSetState a s k v o1 arg = adapterSetState a s k v o2 arg :=
  ⟨rfl, rfl⟩

/-- C9: `remove` issues exactly one `DEL` of the physical key; deleting an
absent key leaves the store unchanged (no error), and removing twice in a
row is the same as removing once (idempotent, both succeed). -/
theorem C9_remove_idempotent (a : RedisCacheAdapter) (s : Store) (k : String)
    (h : storeLookup s (_getKey a k) = none) :
    adapterRemoveCmds a k = [StoreCmd.delCmd (_getKey a k)]
    ∧ adapterRemoveState a s k = s
    ∧ adapterRemoveState a (adapterRemoveState a s k) k = adapterRemoveState a s k :=
  ⟨rfl, storeDel_absent s _ h, storeDel_idem s _⟩

theorem C9_remove_idempotent_witness :
    adapterRemoveCmds (mkAdapter none none) "x"
      = [StoreCmd.delCmd (_getKey (mkAdapter none none) "x")]
    ∧ adapterRemoveState (mkAdapter none none) [] "x" = []
    ∧ adapterRemoveState (mkAdapter none none)
        (adapterRemoveState (mkAdapter none none) [] "x") "x"
      = adapterRemoveState (mkAdapter none none) [] "x" :=
  C9_remove_idempotent (mkAdapter none none) [] "x" rfl

/-- C10: constructing the adapter with an empty (or absent) `keyPrefix`
falls back to `"mikro"` — the fallback tests truthiness, so an explicitly
configured empty prefix is silently replaced for every subsequent
operation (get, set, remove and clear all address the `"mikro"`
namespace). -/
theorem C10_empty_prefix_fallback (e : Option Nat) (k : String) (v : JsonValue)
    (o : String) (arg : Option Nat) :
    (mkAdapter (some "") e).keyPrefix = "mikro"
    ∧ mkKeyPrefix none = "mikro"
    ∧ _getKey (mkAdapter (some "") e) k = "mikro" ++ ":" ++ k
    ∧ adapterGetCmd (mkAdapter (some "") e) k = StoreCmd.getCmd ("mikro" ++ ":" ++ k)
    ∧ (adapterSetCmd (mkAdapter (some "") e) k v o arg).key = "mikro" ++ ":" ++ k
    ∧ adapterRemoveCmds (mkAdapter (some "") e) k = [StoreCmd.delCmd ("mikro" ++ ":" ++ k)]
    ∧ clearPattern (mkAdapter (some "") e) = "mikro" ++ ":*" :=
  ⟨rfl, rfl, rfl, rfl, adapterSetCmd_key (mkAdapter (some "") e) k v o arg, rfl, rfl⟩
